import Mathlib

/-!
Verification of the EnsoAI worktree/agent-session subsystem.

JavaScript strings are modelled as `List Char`; chunked byte streams as
lists of such strings.  External tool invocations (git, rm, PowerShell,
timers) are modelled as events in a trace, with their outcomes drawn from
an explicit environment record, so that the control flow of the TypeScript
source becomes a pure function from the environment to a trace plus an
optional thrown error (the error is its message string).
-/

namespace EnsoAI

/-! ### JS string primitives -/

/-- `s.split('\n')`: split a character list at every newline.  Like the
JS method, the result is never empty ("" splits to [""]). -/
def splitNl : List Char → List (List Char)
  | [] => [[]]
  | c :: cs =>
    if c = '\n' then [] :: splitNl cs
    else
      match splitNl cs with
      | [] => [[c]]
      | l :: ls => (c :: l) :: ls

/-- `s.replace(pat, '')` for a string pattern: JS `String.replace` with a
string first argument removes only the first occurrence. -/
def removeFirst (pat : List Char) : List Char → List Char
  | [] => []
  | c :: cs =>
    if pat.isPrefixOf (c :: cs) then (c :: cs).drop pat.length
    else c :: removeFirst pat cs

/-- `s.trim()`: strip whitespace from both ends. -/
def jsTrim (l : List Char) : List Char :=
  ((l.dropWhile Char.isWhitespace).reverse.dropWhile Char.isWhitespace).reverse

/-- `s.toLowerCase()` composed after `s.replace(/\\/g, '/')`, the path
normalisation used by `stopByWorkdir`. -/
def normalizePath (l : List Char) : List Char :=
  (l.map (fun c => if c = '\\' then '/' else c)).map Char.toLower

/-- JS number-to-string for naturals (decimal, as in `` `agent-${n}` ``),
via Mathlib's little-endian `Nat.digits`. -/
def natToDec (n : Nat) : List Char :=
  if n = 0 then ['0'] else ((Nat.digits 10 n).map Nat.digitChar).reverse

/-! ### `WorktreeService.list` (WorktreeService.ts lines 40-79)

The porcelain text is split on newlines and folded through a
`Partial<GitWorktree>` accumulator `current`; a line `worktree <p>` pushes
the previous accumulator (when its `path` is truthy, i.e. present and
non-empty) and starts a new one. -/

/-- The `GitWorktree` record as used by `WorktreeService.list` (the shared
type declaration lives outside this repository; the fields are the ones the
parser writes). -/
structure GitWorktree where
  path : List Char
  head : Option (List Char)
  branch : Option (List Char)
  isMainWorktree : Bool
  isLocked : Bool
  prunable : Bool
  deriving DecidableEq

/-- `Partial<GitWorktree>`: every field optional, `{}` is all-`none`. -/
structure PendingWorktree where
  path : Option (List Char) := none
  head : Option (List Char) := none
  branch : Option (List Char) := none
  isMainWorktree : Option Bool := none
  isLocked : Option Bool := none
  prunable : Option Bool := none
  deriving DecidableEq

/-- The `current as GitWorktree` cast: absent boolean flags read back as
falsy, an absent path as the empty string. -/
def PendingWorktree.toWorktree (c : PendingWorktree) : GitWorktree :=
  { path := c.path.getD []
    head := c.head
    branch := c.branch
    isMainWorktree := c.isMainWorktree.getD false
    isLocked := c.isLocked.getD false
    prunable := c.prunable.getD false }

/-- `worktrees.push(current as GitWorktree)` guarded by `if (current.path)`:
a defined, non-empty path is truthy. -/
def pushIf (c : PendingWorktree) : List GitWorktree :=
  match c.path with
  | some p => if p = [] then [] else [c.toWorktree]
  | none => []

/-- The accumulator installed at a `worktree ` line (lines 50-55). -/
def newCurrent (line : List Char) : PendingWorktree :=
  { path := some (line.drop 9)
    head := none
    branch := none
    isMainWorktree := some false
    isLocked := some false
    prunable := some false }

def headMarker : List Char := "HEAD ".toList
def branchMarker : List Char := "branch ".toList
def refsHeads : List Char := "refs/heads/".toList
def wtMarker : List Char := "worktree ".toList
def bareLine : List Char := "bare".toList
def lockedLine : List Char := "locked".toList
def prunableLine : List Char := "prunable".toList

/-- The `else if` chain of the loop body for a line that does not start a
new stanza (lines 56-66).  `line.substring(k)` is `drop k`; the branch
line goes through JS `replace('refs/heads/', '')`. -/
def updateCurrent (c : PendingWorktree) (line : List Char) : PendingWorktree :=
  if headMarker.isPrefixOf line then { c with head := some (line.drop 5) }
  else if branchMarker.isPrefixOf line then
    { c with branch := some (removeFirst refsHeads (line.drop 7)) }
  else if line = bareLine then { c with isMainWorktree := some true }
  else if line = lockedLine then { c with isLocked := some true }
  else if line = prunableLine then { c with prunable := some true }
  else c

/-- The whole `for` loop plus the trailing flush (lines 45-71). -/
def parseLines : PendingWorktree → List (List Char) → List GitWorktree
  | c, [] => pushIf c
  | c, line :: rest =>
    if wtMarker.isPrefixOf line then pushIf c ++ parseLines (newCurrent line) rest
    else parseLines (updateCurrent c line) rest

/-- `worktrees[0].isMainWorktree = true` on a non-empty result (lines 74-76). -/
def markFirstMain : List GitWorktree → List GitWorktree
  | [] => []
  | w :: ws => { w with isMainWorktree := true } :: ws

/-- `WorktreeService.list`, as a function of the porcelain text returned by
`git worktree list --porcelain`. -/
def WorktreeService.list (raw : List Char) : List GitWorktree :=
  markFirstMain (parseLines {} (splitNl raw))

/-! ### Specification-side reading of `list` (claims C1, C9)

The claim reads the parser stanza-wise: the input is cut into stanzas, one
per `worktree `-prefixed line (header remainder plus the following lines up
to the next such header), and each stanza with a non-empty header remainder
yields one record. -/

/-- Cut a line list into stanzas: each `worktree `-prefixed line opens a
stanza whose body is every following line up to the next such header.
Lines before the first header belong to no stanza. -/
def stanzasGo (cur : Option (List Char × List (List Char))) :
    List (List Char) → List (List Char × List (List Char))
  | [] => cur.toList
  | line :: rest =>
    if wtMarker.isPrefixOf line then
      cur.toList ++ stanzasGo (some (line.drop 9, [])) rest
    else stanzasGo (cur.map (fun s => (s.1, s.2 ++ [line]))) rest

def stanzas (lines : List (List Char)) : List (List Char × List (List Char)) :=
  stanzasGo none lines

/-- The stanzas that yield a record: those with a non-empty header remainder. -/
def recordStanzas (raw : List Char) : List (List Char × List (List Char)) :=
  (stanzas (splitNl raw)).filter (fun s => decide (s.1 ≠ []))

/-- The record fields of one stanza, per the claim's wording: `HEAD ` and
`branch ` set fields to the line remainder, the branch remainder losing the
leading `refs/heads/` when present (prefix removal); `bare`, `locked`,
`prunable` set their flags. -/
def claimField (r : GitWorktree) (line : List Char) : GitWorktree :=
  if headMarker.isPrefixOf line then { r with head := some (line.drop 5) }
  else if branchMarker.isPrefixOf line then
    let rem := line.drop 7
    { r with branch := some (if refsHeads.isPrefixOf rem then rem.drop 11 else rem) }
  else if line = bareLine then { r with isMainWorktree := true }
  else if line = lockedLine then { r with isLocked := true }
  else if line = prunableLine then { r with prunable := true }
  else r

def initRecord (p : List Char) : GitWorktree :=
  { path := p, head := none, branch := none,
    isMainWorktree := false, isLocked := false, prunable := false }

/-- Claim C1 as stated: one record per non-empty-remainder stanza, flags
defaulting to false, branch = remainder with the prefix removed. -/
def listSpecClaim (raw : List Char) : List GitWorktree :=
  (recordStanzas raw).map (fun s => s.2.foldl claimField (initRecord s.1))

/-- As `claimField`, but with the two details the source actually has: the
branch remainder goes through first-occurrence removal of `refs/heads/`
(JS `replace` with a string pattern), not prefix stripping. -/
def amendedField (r : GitWorktree) (line : List Char) : GitWorktree :=
  if headMarker.isPrefixOf line then { r with head := some (line.drop 5) }
  else if branchMarker.isPrefixOf line then
    { r with branch := some (removeFirst refsHeads (line.drop 7)) }
  else if line = bareLine then { r with isMainWorktree := true }
  else if line = lockedLine then { r with isLocked := true }
  else if line = prunableLine then { r with prunable := true }
  else r

/-- Claim C1 amended: additionally the first returned record is marked as
the main worktree whatever its stanza said. -/
def listSpecAmended (raw : List Char) : List GitWorktree :=
  markFirstMain
    ((recordStanzas raw).map (fun s => s.2.foldl amendedField (initRecord s.1)))

/-! ### `WorktreeService.remove` (WorktreeService.ts lines 97-159)

External calls become trace events; the environment decides which of the
fallible calls fail and with what message.  A run returns the emitted trace
and the optionally thrown error message.  The two `await this.prune()`
calls (lines 99 and 141) have no handler around them; `WorktreeService.remove`
below collapses that path (both prunes succeed), and
`WorktreeService.removeFallible` refines it with fallible prunes — the two
models agree whenever both prunes succeed (`removeFallible_eq_remove`). -/

/-- Outcomes of the external world during one `remove` run. -/
structure RemoveEnv where
  /-- `process.platform`; the source only ever compares it with `'win32'`. -/
  platform : String
  /-- Error message thrown by `git worktree remove`, when it fails. -/
  gitRemoveErr : Option String
  /-- `existsSync(options.path)` inside the error handler. -/
  pathExists : Bool
  /-- Whether the manual `rmdir /s /q` / `rm -rf` step fails. -/
  rmFails : Bool
  /-- Whether the PowerShell process-kill invocation fails. -/
  psKillFails : Bool
  /-- Whether `git branch -D` fails. -/
  branchDeleteFails : Bool
  deriving DecidableEq

/-- `WorktreeRemoveOptions` as consumed by `remove` (the declaration lives
in the shared types outside this repository; these are the fields read). -/
structure WorktreeRemoveOptions where
  path : String
  force : Bool
  deleteBranch : Bool
  branch : Option String
  deriving DecidableEq

/-- One external call issued by the worktree service. -/
inductive Event where
  | gitPrune
  | gitWorktreeRemove (args : List String)
  | psKill (path : String)
  | sleep (ms : Nat)
  | rmdirWin (path : String)
  | rmRecursive (path : String)
  | gitBranchDelete (branch : String)
  deriving DecidableEq

/-- `killProcessesInDirectory` (lines 13-31): a no-op off win32; on win32
one PowerShell invocation whose failure the `catch {}` swallows. -/
def killProcessesInDirectory (env : RemoveEnv) (dirPath : String) :
    List Event × Option String :=
  if env.platform ≠ "win32" then ([], none)
  else
    let attempt : List Event × Option String :=
      ([Event.psKill dirPath], if env.psKillFails then some "powershell failed" else none)
    (attempt.1, none)

/-- JS `String.includes`: some tail of the text starts with the pattern. -/
def hasSubstr (pat l : List Char) : Bool :=
  l.tails.any (fun t => pat.isPrefixOf t)

/-- The error test of lines 113-114: substring containment in the message. -/
def matchedRemoveError (msg : String) : Bool :=
  hasSubstr "Permission denied".toList msg.toList
    || hasSubstr "is not a working tree".toList msg.toList

/-- The replacement error of lines 134-137. -/
def rmFailMessage (path : String) : String :=
  "Failed to remove worktree directory: " ++ path ++ ". "
    ++ "Please close any programs using this directory and try again."

def removeArgs (opts : WorktreeRemoveOptions) : List String :=
  ["worktree", "remove"] ++ (if opts.force then ["--force"] else []) ++ [opts.path]

/-- Lines 117-141: the body of the matched-error handler.  When the path
exists: kill pass, 500 ms sleep, platform-dependent manual deletion whose
failure throws the replacement error; then (only if nothing threw) a second
prune. -/
def manualCleanup (env : RemoveEnv) (opts : WorktreeRemoveOptions) :
    List Event × Option String :=
  let inner : List Event × Option String :=
    if env.pathExists then
      let kill := killProcessesInDirectory env opts.path
      let rmStep :=
        if env.platform = "win32" then Event.rmdirWin opts.path
        else Event.rmRecursive opts.path
      if env.rmFails then
        (kill.1 ++ [Event.sleep 500, rmStep], some (rmFailMessage opts.path))
      else (kill.1 ++ [Event.sleep 500, rmStep], none)
    else ([], none)
  match inner.2 with
  | some e => (inner.1, some e)
  | none => (inner.1 ++ [Event.gitPrune], none)

/-- The truthiness of `options.deleteBranch && options.branch`. -/
def branchRequested (opts : WorktreeRemoveOptions) : Bool :=
  opts.deleteBranch &&
    (match opts.branch with
     | some b => b != ""
     | none => false)

/-- Lines 148-154: `git branch -D`, its error swallowed by `catch {}`. -/
def deleteBranchStep (env : RemoveEnv) (opts : WorktreeRemoveOptions) :
    List Event × Option String :=
  if branchRequested opts then
    match opts.branch with
    | some b =>
      let attempt : List Event × Option String :=
        ([Event.gitBranchDelete b],
          if env.branchDeleteFails then some "branch deletion failed" else none)
      (attempt.1, none)
    | none => ([], none)
  else ([], none)

/-- `WorktreeService.remove`: prune, `git worktree remove`, the matched-error
handler, and the optional branch deletion. -/
def WorktreeService.remove (env : RemoveEnv) (opts : WorktreeRemoveOptions) :
    List Event × Option String :=
  let t0 : List Event := [Event.gitPrune, Event.gitWorktreeRemove (removeArgs opts)]
  match env.gitRemoveErr with
  | none =>
    let bs := deleteBranchStep env opts
    (t0 ++ bs.1, bs.2)
  | some e =>
    if matchedRemoveError e then
      let mc := manualCleanup env opts
      match mc.2 with
      | some err => (t0 ++ mc.1, some err)
      | none =>
        let bs := deleteBranchStep env opts
        (t0 ++ mc.1 ++ bs.1, bs.2)
    else (t0, some e)

/-- Outcomes of the two `git worktree prune` invocations.  In the source the
`await this.prune()` calls (line 99, and line 141 inside the catch block)
have no surrounding handler, so a prune failure propagates to the caller
verbatim, unmatched. -/
structure PruneEnv where
  /-- Error thrown by the opening `this.prune()` (line 99), when it fails. -/
  firstPruneErr : Option String
  /-- Error thrown by the `this.prune()` after manual cleanup (line 141). -/
  secondPruneErr : Option String
  deriving DecidableEq

/-- `manualCleanup` with the trailing (line 141) prune allowed to fail: its
error is thrown out of `remove` unmatched. -/
def manualCleanupFallible (env : RemoveEnv) (pe : PruneEnv)
    (opts : WorktreeRemoveOptions) : List Event × Option String :=
  let inner : List Event × Option String :=
    if env.pathExists then
      let kill := killProcessesInDirectory env opts.path
      let rmStep :=
        if env.platform = "win32" then Event.rmdirWin opts.path
        else Event.rmRecursive opts.path
      if env.rmFails then
        (kill.1 ++ [Event.sleep 500, rmStep], some (rmFailMessage opts.path))
      else (kill.1 ++ [Event.sleep 500, rmStep], none)
    else ([], none)
  match inner.2 with
  | some e => (inner.1, some e)
  | none =>
    match pe.secondPruneErr with
    | some e => (inner.1 ++ [Event.gitPrune], some e)
    | none => (inner.1 ++ [Event.gitPrune], none)

/-- `WorktreeService.remove` with both unguarded prune invocations fallible:
a failure of the opening prune aborts the run before `git worktree remove`,
and a failure of the second prune aborts it before the branch deletion, in
both cases propagating the prune error verbatim. -/
def WorktreeService.removeFallible (env : RemoveEnv) (pe : PruneEnv)
    (opts : WorktreeRemoveOptions) : List Event × Option String :=
  match pe.firstPruneErr with
  | some e => ([Event.gitPrune], some e)
  | none =>
    let t0 : List Event := [Event.gitPrune, Event.gitWorktreeRemove (removeArgs opts)]
    match env.gitRemoveErr with
    | none =>
      let bs := deleteBranchStep env opts
      (t0 ++ bs.1, bs.2)
    | some e =>
      if matchedRemoveError e then
        let mc := manualCleanupFallible env pe opts
        match mc.2 with
        | some err => (t0 ++ mc.1, some err)
        | none =>
          let bs := deleteBranchStep env opts
          (t0 ++ mc.1 ++ bs.1, bs.2)
      else (t0, some e)

/-! ### Claim-side traces for C2 -/

/-- The trace claim C2 describes, literally: the recovery block (kill pass,
500 ms sleep, manual deletion, second prune) happens exactly when the remove
invocation failed with a matched error AND the path still exists, and the
branch deletion happens exactly when both options are set. -/
def claimRemoveTrace (env : RemoveEnv) (opts : WorktreeRemoveOptions) : List Event :=
  [Event.gitPrune, Event.gitWorktreeRemove (removeArgs opts)] ++
    (if (match env.gitRemoveErr with
         | some e => matchedRemoveError e
         | none => false) && env.pathExists then
      (killProcessesInDirectory env opts.path).1 ++
        [Event.sleep 500,
          if env.platform = "win32" then Event.rmdirWin opts.path
          else Event.rmRecursive opts.path,
          Event.gitPrune]
    else []) ++
    (if branchRequested opts then
      match opts.branch with
      | some b => [Event.gitBranchDelete b]
      | none => []
    else [])

/-- The trace of claim C2 as amended: the second prune is not conditioned on
the path existing (only the kill/sleep/deletion steps are), a failing manual
deletion aborts the run before the second prune, and the branch deletion
happens only when no error is being thrown. -/
def amendedRemoveTrace (env : RemoveEnv) (opts : WorktreeRemoveOptions) : List Event :=
  let branchEvents : List Event :=
    if branchRequested opts then
      match opts.branch with
      | some b => [Event.gitBranchDelete b]
      | none => []
    else []
  [Event.gitPrune, Event.gitWorktreeRemove (removeArgs opts)] ++
    (match env.gitRemoveErr with
     | none => branchEvents
     | some e =>
       if matchedRemoveError e then
         (if env.pathExists then
           (killProcessesInDirectory env opts.path).1 ++
             [Event.sleep 500,
               if env.platform = "win32" then Event.rmdirWin opts.path
               else Event.rmRecursive opts.path]
         else []) ++
           (if env.pathExists && env.rmFails then []
           else [Event.gitPrune] ++ branchEvents)
       else [])

/-! ### The WORKTREE_REMOVE IPC handler (worktree handler file, lines 43-57) -/

/-- One step of the IPC handler: the three teardown calls, the fixed delay,
and the delegated service events. -/
inductive HandlerEvent where
  | stopWatchers (path : String)
  | ptyDestroy (path : String)
  | agentStop (path : String)
  | wait (ms : Nat)
  | git (e : Event)
  deriving DecidableEq

/-- The WORKTREE_REMOVE handler body: stop watchers, destroy terminals and
agent sessions under the path, wait 1000 ms, then `WorktreeService.remove`. -/
def worktreeRemoveHandler (env : RemoveEnv) (opts : WorktreeRemoveOptions) :
    List HandlerEvent × Option String :=
  let r := WorktreeService.remove env opts
  ([HandlerEvent.stopWatchers opts.path, HandlerEvent.ptyDestroy opts.path,
      HandlerEvent.agentStop opts.path, HandlerEvent.wait 1000]
      ++ r.1.map HandlerEvent.git,
    r.2)

def isTeardown : HandlerEvent → Bool
  | .stopWatchers _ => true
  | .ptyDestroy _ => true
  | .agentStop _ => true
  | _ => false

/-- The destructive filesystem steps: the git-level worktree removal and the
two manual deletion commands. -/
def isDestructive : HandlerEvent → Bool
  | .git (Event.gitWorktreeRemove _) => true
  | .git (Event.rmdirWin _) => true
  | .git (Event.rmRecursive _) => true
  | _ => false

/-! ### `AgentSessionManager` (agent session file)

The session map is an insertion-ordered association list, matching JS `Map`
semantics for `set`, `delete`, iteration and `clear`.  A session record
keeps the fields the claims are about (`id`, `workdir`); the process handle,
agent metadata and message callback are external resources with no bearing
on the map-shape claims. -/

structure Session where
  id : List Char
  workdir : List Char
  deriving DecidableEq

structure MgrState where
  sessions : List (List Char × Session)
  counter : Nat
  deriving DecidableEq

/-- `` `agent-${++this.counter}` `` for the incremented counter value. -/
def mkId (n : Nat) : List Char := "agent-".toList ++ natToDec n

/-- JS `Map.set`: overwrite in place when the key exists, append otherwise. -/
def mapSet (m : List (List Char × Session)) (k : List Char) (v : Session) :
    List (List Char × Session) :=
  if m.any (fun p => p.1 == k) then
    m.map (fun p => if p.1 == k then (k, v) else p)
  else m ++ [(k, v)]

/-- JS `Map.delete`. -/
def mapDelete (m : List (List Char × Session)) (k : List Char) :
    List (List Char × Session) :=
  m.filter (fun p => !(p.1 == k))

/-- JS `Map.get`. -/
def mapGet (m : List (List Char × Session)) (k : List Char) : Option Session :=
  (m.find? (fun p => p.1 == k)).map Prod.snd

/-- `create` (lines 16-71): bump the counter, build the id, spawn, register,
insert. Returns the new state and the fresh id. -/
def AgentSessionManager.create (st : MgrState) (workdir : List Char) :
    MgrState × List Char :=
  let n := st.counter + 1
  let id := mkId n
  let session : Session := { id := id, workdir := workdir }
  ({ sessions := mapSet st.sessions id session, counter := n }, id)

/-- The `exit` callback registered in `create` (lines 64-67): drop the entry. -/
def AgentSessionManager.exitCleanup (st : MgrState) (id : List Char) : MgrState :=
  { st with sessions := mapDelete st.sessions id }

/-- `send` (lines 84-101): throws when the session is unknown, otherwise
writes to the process stdin; the map is untouched either way. -/
def AgentSessionManager.send (st : MgrState) (sessionId : List Char) :
    MgrState × Option (List Char) :=
  match mapGet st.sessions sessionId with
  | none => (st, some ("Session not found: ".toList ++ sessionId))
  | some _ => (st, none)

/-- `stop` (lines 103-109): kill and delete when present. -/
def AgentSessionManager.stop (st : MgrState) (sessionId : List Char) : MgrState :=
  match mapGet st.sessions sessionId with
  | some _ => { st with sessions := mapDelete st.sessions sessionId }
  | none => st

/-- `stopAll` (lines 111-116): kill every process, clear the map. -/
def AgentSessionManager.stopAll (st : MgrState) : MgrState :=
  { st with sessions := [] }

/-- The match of `stopByWorkdir` (lines 122-125) against the normalised
target directory. -/
def wdMatch (normalizedWorkdir : List Char) (cwd : List Char) : Bool :=
  let normalizedCwd := normalizePath cwd
  (normalizedCwd == normalizedWorkdir)
    || (normalizedWorkdir ++ ['/']).isPrefixOf normalizedCwd

/-- The iteration of `stopByWorkdir`: visit the entries in order, killing and
deleting the matching ones; the returned list records the killed entries'
keys in visit order. -/
def stopByWorkdirGo (nw : List Char) :
    List (List Char × Session) → MgrState → List (List Char) →
      MgrState × List (List Char)
  | [], st, killed => (st, killed)
  | (id, s) :: rest, st, killed =>
    if wdMatch nw s.workdir then
      stopByWorkdirGo nw rest { st with sessions := mapDelete st.sessions id }
        (killed ++ [id])
    else stopByWorkdirGo nw rest st killed

/-- `stopByWorkdir` (lines 118-130). -/
def AgentSessionManager.stopByWorkdir (st : MgrState) (workdir : List Char) :
    MgrState × List (List Char) :=
  stopByWorkdirGo (normalizePath workdir) st.sessions st []

/-- The manager invariant of claim C6: keys equal the stored ids, keys are
unique, and every key is an `agent-<n>` stamped from some past counter
value. -/
def Inv (st : MgrState) : Prop :=
  (∀ p ∈ st.sessions, p.1 = p.2.id) ∧
    (st.sessions.map Prod.fst).Nodup ∧
    (∀ p ∈ st.sessions, ∃ n, 1 ≤ n ∧ n ≤ st.counter ∧ p.1 = mkId n)

/-! ### The stdout NDJSON framing of `create` (lines 42-58)

`JSON.parse` is abstracted into a parameter `jparse` (the claims quantify
over what parses); a delivery is one `handleMessage`/`onMessage` call. -/

/-- Processing of one already-split line: skipped when blank, delivered when
it parses, dropped otherwise. -/
def lineDeliver {J : Type} (jparse : List Char → Option J) (line : List Char) :
    Option J :=
  if jsTrim line = [] then none else jparse line

/-- The `data` listener: append the chunk to the buffer, split on newlines,
retain the final fragment, deliver each complete line in order. -/
def processChunk {J : Type} (jparse : List Char → Option J)
    (st : List Char × List J) (chunk : List Char) : List Char × List J :=
  let buf := st.1 ++ chunk
  let lines := splitNl buf
  (lines.getLastD [], st.2 ++ lines.dropLast.filterMap (lineDeliver jparse))

/-- A whole stdout chunk sequence fed through the listener, from the fresh
`buffer = ''` state. -/
def runChunks {J : Type} (jparse : List Char → Option J)
    (chunks : List (List Char)) : List Char × List J :=
  chunks.foldl (processChunk jparse) ([], [])

/-! ### Auxiliary definitions for the proofs and the concrete check inputs -/

/-- The `current` accumulator freshly created for a header remainder. -/
def pendingOf (rem : List Char) : PendingWorktree :=
  { path := some rem
    head := none
    branch := none
    isMainWorktree := some false
    isLocked := some false
    prunable := some false }

/-- Relation between a stanza-in-progress and the loop accumulator: before
the first header the accumulator has no path; inside a stanza it is the
fold of the body over the fresh accumulator. -/
def CurRel : Option (List Char × List (List Char)) → PendingWorktree → Prop
  | none, pc => pc.path = none
  | some s, pc => pc = s.2.foldl updateCurrent (pendingOf s.1)

/-- Records extracted from a stanza list (used to bridge the loop to the
stanza view). -/
def recordsOf (st : List (List Char × List (List Char))) : List GitWorktree :=
  (st.filter (fun s => decide (s.1 ≠ []))).map
    (fun s => s.2.foldl amendedField (initRecord s.1))

/-- Keys of the sessions a `stopByWorkdir` pass kills. -/
def matchedKeys (nw : List Char) (entries : List (List Char × Session)) :
    List (List Char) :=
  (entries.filter (fun p => wdMatch nw p.2.workdir)).map Prod.fst

/-- Concrete inputs for the closed checks. -/
def sampleOpts : WorktreeRemoveOptions :=
  { path := "/repo/wt", force := false, deleteBranch := false, branch := none }

def sampleEnvOk : RemoveEnv :=
  { platform := "linux", gitRemoveErr := none, pathExists := true,
    rmFails := false, psKillFails := false, branchDeleteFails := false }

/-- A matched `git worktree remove` failure with the path already gone. -/
def envMatchedGone : RemoveEnv :=
  { platform := "linux", gitRemoveErr := some "fatal: '/repo/wt' is not a working tree",
    pathExists := false, rmFails := false, psKillFails := false,
    branchDeleteFails := false }

/-- An unmatched `git worktree remove` failure. -/
def envUnmatched : RemoveEnv :=
  { platform := "linux", gitRemoveErr := some "boom", pathExists := true,
    rmFails := true, psKillFails := true, branchDeleteFails := true }

/-- A matched failure ('Permission denied') on win32 with the path present. -/
def envMatchedWin : RemoveEnv :=
  { platform := "win32", gitRemoveErr := some "Permission denied: /repo/wt",
    pathExists := true, rmFails := false, psKillFails := false,
    branchDeleteFails := false }

def sampleRawTwo : List Char :=
  ("worktree /a\nworktree /b\nbare").toList

def sampleState : MgrState :=
  { sessions :=
      [(("agent-1").toList,
          { id := ("agent-1").toList, workdir := ("C:\\Work\\WT1\\sub").toList }),
        (("agent-2").toList,
          { id := ("agent-2").toList, workdir := ("c:/work/other").toList })]
    counter := 2 }

/-- The two records `list` yields on `sampleRawTwo`. -/
def wA : GitWorktree :=
  { path := "/a".toList, head := none, branch := none,
    isMainWorktree := true, isLocked := false, prunable := false }

def wB : GitWorktree :=
  { path := "/b".toList, head := none, branch := none,
    isMainWorktree := true, isLocked := false, prunable := false }

/-! ## Theorems -/

/-- C8: `killProcessesInDirectory` never throws — off win32 it returns
without executing anything, and on win32 a PowerShell failure is swallowed. -/
theorem killProcessesInDirectory_total (env : RemoveEnv) (dirPath : String) :
    (killProcessesInDirectory env dirPath).2 = none ∧
      (env.platform ≠ "win32" → killProcessesInDirectory env dirPath = ([], none)) := by
  constructor
  · unfold killProcessesInDirectory
    split
    · rfl
    · rfl
  · intro h
    unfold killProcessesInDirectory
    simp [h]

theorem killProcessesInDirectory_total_witness :
    ((killProcessesInDirectory envUnmatched "/repo/wt").2 = none ∧
        killProcessesInDirectory envUnmatched "/repo/wt" = ([], none)) ∧
      (killProcessesInDirectory envMatchedWin "/repo/wt").2 = none :=
  ⟨⟨(killProcessesInDirectory_total envUnmatched "/repo/wt").1,
      (killProcessesInDirectory_total envUnmatched "/repo/wt").2 (by decide)⟩,
    (killProcessesInDirectory_total envMatchedWin "/repo/wt").1⟩

/-- C4: the WORKTREE_REMOVE handler's trace starts with the three teardown
calls followed by the 1000 ms delay, and every destructive filesystem event
(the git-level removal, `rmdir /s /q`, the recursive rm) occurs only after
those four steps. -/
theorem worktreeRemoveHandler_teardown_first (env : RemoveEnv)
    (opts : WorktreeRemoveOptions) :
    (worktreeRemoveHandler env opts).1.take 4 =
        [HandlerEvent.stopWatchers opts.path, HandlerEvent.ptyDestroy opts.path,
          HandlerEvent.agentStop opts.path, HandlerEvent.wait 1000] ∧
      ∀ j, isDestructive ((worktreeRemoveHandler env opts).1.getD j (HandlerEvent.wait 0))
          = true → 4 ≤ j := by
  constructor
  · rfl
  · intro j hj
    by_contra hlt
    push_neg at hlt
    interval_cases j <;>
      simp [worktreeRemoveHandler, isDestructive, List.getD] at hj

theorem worktreeRemoveHandler_teardown_first_witness :
    isDestructive ((worktreeRemoveHandler sampleEnvOk sampleOpts).1.getD 1
          (HandlerEvent.wait 0)) = false ∧
      isDestructive ((worktreeRemoveHandler sampleEnvOk sampleOpts).1.getD 5
          (HandlerEvent.wait 0)) = true ∧
      4 ≤ 5 :=
  ⟨by decide, by decide,
    (worktreeRemoveHandler_teardown_first sampleEnvOk sampleOpts).2 5 (by decide)⟩


/-! ### Claims C2, C3, C5: `WorktreeService.remove` -/

theorem deleteBranchStep_fst (env : RemoveEnv) (opts : WorktreeRemoveOptions) :
    (deleteBranchStep env opts).1 =
      (if branchRequested opts = true then
        match opts.branch with
        | some b => [Event.gitBranchDelete b]
        | none => []
      else []) := by
  unfold deleteBranchStep
  split
  · cases opts.branch <;> rfl
  · rfl

theorem remove_trace_cex :
    (WorktreeService.remove envMatchedGone sampleOpts).1 ≠
      claimRemoveTrace envMatchedGone sampleOpts := by decide

theorem remove_trace_amended (env : RemoveEnv) (opts : WorktreeRemoveOptions) :
    (WorktreeService.remove env opts).1 = amendedRemoveTrace env opts := by
  unfold WorktreeService.remove amendedRemoveTrace manualCleanup
  cases h : env.gitRemoveErr with
  | none => simp [deleteBranchStep_fst]
  | some e =>
    by_cases hm : matchedRemoveError e
    · by_cases hp : env.pathExists
      · by_cases hr : env.rmFails
        · simp [hm, hp, hr]
        · simp [hm, hp, hr, deleteBranchStep_fst]
      · simp [hm, hp, deleteBranchStep_fst]
    · simp [hm]

theorem deleteBranchStep_snd (env : RemoveEnv) (opts : WorktreeRemoveOptions) :
    (deleteBranchStep env opts).2 = none := by
  unfold deleteBranchStep
  split
  · cases opts.branch <;> rfl
  · rfl

theorem deleteBranchStep_count_prune (env : RemoveEnv) (opts : WorktreeRemoveOptions) :
    (deleteBranchStep env opts).1.count Event.gitPrune = 0 := by
  unfold deleteBranchStep
  split
  · cases opts.branch <;> simp
  · simp

theorem deleteBranchStep_no_sleep (env : RemoveEnv) (opts : WorktreeRemoveOptions) :
    Event.sleep 500 ∉ (deleteBranchStep env opts).1 := by
  unfold deleteBranchStep
  split
  · cases opts.branch <;> simp
  · simp

theorem kill_count_prune (env : RemoveEnv) (p : String) :
    (killProcessesInDirectory env p).1.count Event.gitPrune = 0 := by
  unfold killProcessesInDirectory
  split <;> simp

theorem kill_no_sleep (env : RemoveEnv) (p : String) :
    Event.sleep 500 ∉ (killProcessesInDirectory env p).1 := by
  unfold killProcessesInDirectory
  split <;> simp

theorem remove_recovery_iff (env : RemoveEnv) (opts : WorktreeRemoveOptions)
    (e : String) (h : env.gitRemoveErr = some e) :
    ((Event.sleep 500 ∈ (WorktreeService.remove env opts).1 ∨
        2 ≤ (WorktreeService.remove env opts).1.count Event.gitPrune)
      ↔ matchedRemoveError e = true) ∧
    (matchedRemoveError e = false →
      WorktreeService.remove env opts =
        ([Event.gitPrune, Event.gitWorktreeRemove (removeArgs opts)], some e)) := by
  unfold WorktreeService.remove manualCleanup
  simp only [h]
  by_cases hm : matchedRemoveError e
  · constructor
    · simp only [hm, iff_true]
      by_cases hp : env.pathExists
      · by_cases hr : env.rmFails <;> simp [hp, hr]
      · simp [hp, List.count_append, deleteBranchStep_count_prune]
    · intro hf
      rw [hm] at hf
      cases hf
  · constructor
    · simp only [hm]
      simp [List.count_append]
    · intro _
      simp [hm]

theorem remove_recovery_iff_witness :
    envMatchedWin.gitRemoveErr = some "Permission denied: /repo/wt" ∧
      (((Event.sleep 500 ∈ (WorktreeService.remove envMatchedWin sampleOpts).1 ∨
            2 ≤ (WorktreeService.remove envMatchedWin sampleOpts).1.count Event.gitPrune)
          ↔ matchedRemoveError "Permission denied: /repo/wt" = true) ∧
        (matchedRemoveError "Permission denied: /repo/wt" = false →
          WorktreeService.remove envMatchedWin sampleOpts =
            ([Event.gitPrune, Event.gitWorktreeRemove (removeArgs sampleOpts)],
              some "Permission denied: /repo/wt"))) :=
  ⟨rfl, remove_recovery_iff envMatchedWin sampleOpts "Permission denied: /repo/wt" rfl⟩

theorem manualCleanupFallible_both_ok (env : RemoveEnv) (opts : WorktreeRemoveOptions) :
    manualCleanupFallible env ⟨none, none⟩ opts = manualCleanup env opts := by
  unfold manualCleanupFallible manualCleanup
  by_cases hp : env.pathExists
  · by_cases hr : env.rmFails <;> simp [hp, hr]
  · simp [hp]

/-- The collapsed model used by claims C2-C4 agrees with the fallible one on
every environment in which both prune invocations succeed. -/
theorem removeFallible_eq_remove (env : RemoveEnv) (opts : WorktreeRemoveOptions) :
    WorktreeService.removeFallible env ⟨none, none⟩ opts
      = WorktreeService.remove env opts := by
  unfold WorktreeService.removeFallible WorktreeService.remove
  simp only [manualCleanupFallible_both_ok]

theorem remove_error_cex :
    envUnmatched.gitRemoveErr = some "boom" ∧
      (WorktreeService.removeFallible envUnmatched ⟨none, none⟩ sampleOpts).2
        = some "boom" := by decide

/-- C5 (amended): within `remove`, process-kill and branch-deletion failures
are swallowed, a manual-deletion failure is replaced by the generic message,
an unmatched `git worktree remove` error is rethrown verbatim, and the two
unguarded `git worktree prune` invocations are not caught at all — their
errors propagate to the caller verbatim. -/
theorem remove_error_taxonomy (env : RemoveEnv) (pe : PruneEnv)
    (opts : WorktreeRemoveOptions) (b₁ b₂ : Bool) :
    WorktreeService.removeFallible
          { env with psKillFails := b₁, branchDeleteFails := b₂ } pe opts
        = WorktreeService.removeFallible env pe opts ∧
      ((WorktreeService.removeFallible env pe opts).2 = none ∨
        (∃ e, pe.firstPruneErr = some e ∧
          WorktreeService.removeFallible env pe opts = ([Event.gitPrune], some e)) ∨
        (∃ e, env.gitRemoveErr = some e ∧ matchedRemoveError e = false ∧
          (WorktreeService.removeFallible env pe opts).2 = some e) ∨
        (WorktreeService.removeFallible env pe opts).2
          = some (rmFailMessage opts.path) ∨
        (∃ e, pe.secondPruneErr = some e ∧
          (WorktreeService.removeFallible env pe opts).2 = some e)) := by
  constructor
  · unfold WorktreeService.removeFallible manualCleanupFallible
      killProcessesInDirectory deleteBranchStep
    simp
  · unfold WorktreeService.removeFallible manualCleanupFallible
    cases hp1 : pe.firstPruneErr with
    | some e => exact Or.inr (Or.inl ⟨e, rfl, rfl⟩)
    | none =>
      cases h : env.gitRemoveErr with
      | none => simp [deleteBranchStep_snd]
      | some e =>
        by_cases hm : matchedRemoveError e
        · by_cases hp : env.pathExists
          · by_cases hr : env.rmFails
            · simp [hm, hp, hr]
            · cases hp2 : pe.secondPruneErr with
              | some e2 =>
                refine Or.inr (Or.inr (Or.inr (Or.inr ⟨e2, rfl, ?_⟩)))
                simp [hm, hp, hr]
              | none => simp [hm, hp, hr, deleteBranchStep_snd]
          · cases hp2 : pe.secondPruneErr with
            | some e2 =>
              refine Or.inr (Or.inr (Or.inr (Or.inr ⟨e2, rfl, ?_⟩)))
              simp [hm, hp]
            | none => simp [hm, hp, deleteBranchStep_snd]
        · exact Or.inr (Or.inr (Or.inl ⟨e, rfl, by simp [hm], by simp [hm]⟩))


/-! ### Claims C1, C9: `WorktreeService.list` -/

theorem updateCurrent_path (c : PendingWorktree) (line : List Char) :
    (updateCurrent c line).path = c.path := by
  unfold updateCurrent
  repeat first | rfl | split

theorem foldl_updateCurrent_path (body : List (List Char)) (c : PendingWorktree) :
    (body.foldl updateCurrent c).path = c.path := by
  induction body generalizing c with
  | nil => rfl
  | cons l ls ih => rw [List.foldl_cons, ih, updateCurrent_path]

theorem updateCurrent_toWorktree (c : PendingWorktree) (line : List Char) :
    (updateCurrent c line).toWorktree = amendedField c.toWorktree line := by
  unfold updateCurrent amendedField
  by_cases h1 : headMarker.isPrefixOf line
  · simp [h1, PendingWorktree.toWorktree]
  · by_cases h2 : branchMarker.isPrefixOf line
    · simp [h1, h2, PendingWorktree.toWorktree]
    · by_cases h3 : line = bareLine
      · subst h3
        simp [PendingWorktree.toWorktree,
          show ¬(headMarker <+: bareLine) from by decide,
          show ¬(branchMarker <+: bareLine) from by decide]
      · by_cases h4 : line = lockedLine
        · subst h4
          simp [PendingWorktree.toWorktree,
            show ¬(headMarker <+: lockedLine) from by decide,
            show ¬(branchMarker <+: lockedLine) from by decide,
            show lockedLine ≠ bareLine from by decide]
        · by_cases h5 : line = prunableLine
          · subst h5
            simp [PendingWorktree.toWorktree,
              show ¬(headMarker <+: prunableLine) from by decide,
              show ¬(branchMarker <+: prunableLine) from by decide,
              show prunableLine ≠ bareLine from by decide,
              show prunableLine ≠ lockedLine from by decide]
          · simp [h1, h2, h3, h4, h5, PendingWorktree.toWorktree]

theorem foldl_toWorktree (body : List (List Char)) (c : PendingWorktree) :
    (body.foldl updateCurrent c).toWorktree = body.foldl amendedField c.toWorktree := by
  induction body generalizing c with
  | nil => rfl
  | cons l ls ih => rw [List.foldl_cons, List.foldl_cons, ih, updateCurrent_toWorktree]

theorem pendingOf_toWorktree (rem : List Char) :
    (pendingOf rem).toWorktree = initRecord rem := rfl

theorem newCurrent_eq_pendingOf (line : List Char) :
    newCurrent line = pendingOf (line.drop 9) := rfl

theorem recordsOf_append (a b : List (List Char × List (List Char))) :
    recordsOf (a ++ b) = recordsOf a ++ recordsOf b := by
  simp [recordsOf, List.filter_append]

theorem pushIf_rel (cur : Option (List Char × List (List Char)))
    (pc : PendingWorktree) (h : CurRel cur pc) :
    pushIf pc = recordsOf cur.toList := by
  cases cur with
  | none =>
    simp only [CurRel] at h
    simp [pushIf, h, recordsOf, Option.toList]
  | some s =>
    simp only [CurRel] at h
    subst h
    unfold pushIf
    rw [foldl_updateCurrent_path]
    show (if s.1 = [] then ([] : List GitWorktree)
        else [(s.2.foldl updateCurrent (pendingOf s.1)).toWorktree]) = recordsOf [s]
    by_cases hrem : s.1 = []
    · simp [hrem, recordsOf]
    · simp [hrem, recordsOf, foldl_toWorktree, pendingOf_toWorktree]

theorem parseLines_bridge (lines : List (List Char)) :
    ∀ (cur : Option (List Char × List (List Char))) (pc : PendingWorktree),
      CurRel cur pc → parseLines pc lines = recordsOf (stanzasGo cur lines) := by
  induction lines with
  | nil =>
    intro cur pc h
    simpa [parseLines, stanzasGo] using pushIf_rel cur pc h
  | cons line rest ih =>
    intro cur pc h
    by_cases hw : wtMarker.isPrefixOf line
    · simp only [parseLines, stanzasGo, hw, if_pos]
      rw [recordsOf_append, pushIf_rel cur pc h,
        ih (some (line.drop 9, [])) (newCurrent line)
          (by simp [CurRel, newCurrent_eq_pendingOf])]
    · simp only [parseLines, stanzasGo, hw, if_neg]
      apply ih
      cases cur with
      | none =>
        show (updateCurrent pc line).path = none
        rw [updateCurrent_path]
        exact h
      | some s =>
        have h' : pc = s.2.foldl updateCurrent (pendingOf s.1) := h
        show updateCurrent pc line = (s.2 ++ [line]).foldl updateCurrent (pendingOf s.1)
        rw [h', List.foldl_append]
        rfl

/-- C1, counterexample: on the input `worktree /a\nbranch xrefs/heads/y` the
parser marks the sole record as the main worktree although its stanza has no
`bare` line, and its `replace` deletes an interior occurrence of
`refs/heads/`, so the output differs from the claimed one. -/
theorem list_claim_cex :
    WorktreeService.list ("worktree /a\nbranch xrefs/heads/y").toList ≠
      listSpecClaim ("worktree /a\nbranch xrefs/heads/y").toList := by decide

/-- C1 (amended): `WorktreeService.list` returns one record per
non-empty-remainder `worktree ` line, in input order, with the fields set
stanza-wise as claimed — except that the branch field removes the first
occurrence of `refs/heads/` anywhere in the remainder, and the first record
is always marked as the main worktree. -/
theorem list_eq_listSpecAmended (raw : List Char) :
    WorktreeService.list raw = listSpecAmended raw := by
  unfold WorktreeService.list listSpecAmended
  rw [parseLines_bridge (splitNl raw) none {} rfl]
  rfl

theorem amendedField_main (r : GitWorktree) (line : List Char) :
    (amendedField r line).isMainWorktree
      = (r.isMainWorktree || decide (line = bareLine)) := by
  unfold amendedField
  by_cases h3 : line = bareLine
  · subst h3
    simp [show ¬(headMarker <+: bareLine) from by decide,
      show ¬(branchMarker <+: bareLine) from by decide]
  · by_cases h1 : headMarker.isPrefixOf line
    · simp [h1, h3]
    · by_cases h2 : branchMarker.isPrefixOf line
      · simp [h1, h2, h3]
      · by_cases h4 : line = lockedLine
        · subst h4
          simp [show ¬(headMarker <+: lockedLine) from by decide,
            show ¬(branchMarker <+: lockedLine) from by decide,
            show lockedLine ≠ bareLine from by decide]
        · by_cases h5 : line = prunableLine
          · subst h5
            simp [show ¬(headMarker <+: prunableLine) from by decide,
              show ¬(branchMarker <+: prunableLine) from by decide,
              show prunableLine ≠ bareLine from by decide,
              show prunableLine ≠ lockedLine from by decide]
          · simp [h1, h2, h3, h4, h5]

theorem foldl_amendedField_main (body : List (List Char)) (r : GitWorktree) :
    (body.foldl amendedField r).isMainWorktree
      = (r.isMainWorktree || decide (bareLine ∈ body)) := by
  induction body generalizing r with
  | nil => simp
  | cons l ls ih =>
    rw [List.foldl_cons, ih, amendedField_main]
    by_cases h : l = bareLine
    · simp [h]
    · have h' : ¬(bareLine = l) := fun hh => h hh.symm
      simp [h, h', List.mem_cons, Bool.or_assoc]

theorem markFirstMain_length (l : List GitWorktree) :
    (markFirstMain l).length = l.length := by
  cases l <;> simp [markFirstMain]

theorem markFirstMain_getD_succ (l : List GitWorktree) (i : Nat) (d : GitWorktree) :
    (markFirstMain l).getD (i + 1) d = l.getD (i + 1) d := by
  cases l <;> simp [markFirstMain, List.getD]

theorem getD_map_of_lt {α β : Type} (f : α → β) (rs : List α) (d : β) (d' : α) :
    ∀ i : Nat, i < rs.length → (rs.map f).getD i d = f (rs.getD i d') := by
  induction rs with
  | nil => intro i h; cases h
  | cons a l ih =>
    intro i h
    cases i with
    | zero => rfl
    | succ n =>
      simp only [List.map_cons, List.getD_cons_succ]
      exact ih n (by simpa using Nat.lt_of_succ_lt_succ h)

/-- C9: the first record returned by `list` is always flagged as the main
worktree, even without a `bare` line; a later record carries the flag only
when its own stanza contains a `bare` line. -/
theorem list_first_main_later_bare (raw : List Char) :
    (∀ w ws, WorktreeService.list raw = w :: ws → w.isMainWorktree = true) ∧
    (∀ i : Nat, i + 1 < (WorktreeService.list raw).length →
      ((WorktreeService.list raw).getD (i + 1) (initRecord [])).isMainWorktree = true →
      bareLine ∈ ((recordStanzas raw).getD (i + 1) ([], [])).2) := by
  have hb : WorktreeService.list raw =
      markFirstMain ((recordStanzas raw).map
        (fun s => s.2.foldl amendedField (initRecord s.1))) := by
    unfold WorktreeService.list
    rw [parseLines_bridge (splitNl raw) none {} rfl]
    rfl
  constructor
  · intro w ws h
    unfold WorktreeService.list at h
    cases hp : parseLines {} (splitNl raw) with
    | nil => rw [hp] at h; cases h
    | cons x xs =>
      rw [hp] at h
      simp only [markFirstMain, List.cons.injEq] at h
      rw [← h.1]
  · intro i hlen hmain
    rw [hb] at hlen hmain
    rw [markFirstMain_length, List.length_map] at hlen
    rw [markFirstMain_getD_succ,
      getD_map_of_lt _ _ _ (([], []) : List Char × List (List Char)) (i + 1) hlen] at hmain
    rw [foldl_amendedField_main] at hmain
    simp only [initRecord, Bool.false_or] at hmain
    exact of_decide_eq_true hmain

theorem list_first_main_later_bare_witness :
    (WorktreeService.list sampleRawTwo = wA :: [wB] ∧ wA.isMainWorktree = true) ∧
      ((0 + 1 < (WorktreeService.list sampleRawTwo).length ∧
          ((WorktreeService.list sampleRawTwo).getD 1 (initRecord [])).isMainWorktree
            = true) ∧
        bareLine ∈ ((recordStanzas sampleRawTwo).getD 1 ([], [])).2) :=
  ⟨⟨by decide, (list_first_main_later_bare sampleRawTwo).1 wA [wB] (by decide)⟩,
    ⟨⟨by decide, by decide⟩,
      (list_first_main_later_bare sampleRawTwo).2 0 (by decide) (by decide)⟩⟩


/-! ### Claim C7: the NDJSON framing -/

theorem splitNl_cons_nl (cs : List Char) : splitNl ('\n' :: cs) = [] :: splitNl cs := by
  rw [splitNl]
  simp

theorem splitNl_cons_other (c : Char) (cs : List Char) (hc : ¬c = '\n')
    (u : List Char) (us : List (List Char)) (h : splitNl cs = u :: us) :
    splitNl (c :: cs) = (c :: u) :: us := by
  rw [splitNl, if_neg hc, h]

theorem splitNl_ne_nil (l : List Char) : splitNl l ≠ [] := by
  induction l with
  | nil => simp [splitNl]
  | cons c cs ih =>
    by_cases hc : c = '\n'
    · subst hc
      rw [splitNl_cons_nl]
      simp
    · cases h : splitNl cs with
      | nil => exact absurd h ih
      | cons a as =>
        rw [splitNl_cons_other c cs hc a as h]
        simp

theorem getLastD_append_cons {α : Type} (xs : List α) (y : α) (ys : List α) :
    ∀ d : α, (xs ++ y :: ys).getLastD d = ys.getLastD y := by
  induction xs with
  | nil => intro d; rw [List.nil_append, List.getLastD_cons]
  | cons x xs ih =>
    intro d
    rw [List.cons_append, List.getLastD_cons, ih]

theorem dropLast_append_cons' {α : Type} (xs : List α) (y : α) (ys : List α) :
    (xs ++ y :: ys).dropLast = xs ++ (y :: ys).dropLast := by
  induction xs with
  | nil => rfl
  | cons x xs ih =>
    rw [List.cons_append]
    rw [show ((x :: (xs ++ y :: ys)).dropLast) = x :: (xs ++ y :: ys).dropLast from by
      cases h : xs ++ y :: ys with
      | nil => exact absurd h (by simp)
      | cons a as => rw [List.dropLast_cons₂]]
    rw [ih, List.cons_append]

theorem splitNl_of_no_nl (l : List Char) (h : '\n' ∉ l) : splitNl l = [l] := by
  induction l with
  | nil => rfl
  | cons c cs ih =>
    have hc : ¬(c = '\n') := fun e => h (by simp [e])
    have h' : '\n' ∉ cs := fun m => h (List.mem_cons_of_mem _ m)
    exact splitNl_cons_other c cs hc cs [] (ih h')

theorem splitNl_no_nl_last (l : List Char) : '\n' ∉ (splitNl l).getLastD [] := by
  induction l with
  | nil => simp [splitNl]
  | cons c cs ih =>
    by_cases hc : c = '\n'
    · subst hc
      rw [splitNl_cons_nl, List.getLastD_cons]
      cases h : splitNl cs with
      | nil => exact absurd h (splitNl_ne_nil cs)
      | cons a as =>
        rw [h] at ih
        cases as with
        | nil => simpa [List.getLastD_cons] using ih
        | cons b bs => simpa [List.getLastD_cons] using ih
    · cases h : splitNl cs with
      | nil => exact absurd h (splitNl_ne_nil cs)
      | cons a as =>
        rw [splitNl_cons_other c cs hc a as h]
        rw [h] at ih
        cases as with
        | nil =>
          rw [List.getLastD_cons, List.getLastD_nil] at ih ⊢
          intro m
          rcases List.mem_cons.mp m with h1 | h2
          · exact hc h1.symm
          · exact ih h2
        | cons b bs =>
          rw [List.getLastD_cons, List.getLastD_cons] at ih ⊢
          exact ih

theorem splitNl_append (a b : List Char) :
    splitNl (a ++ b) =
      (splitNl a).dropLast ++
        ((splitNl a).getLastD [] ++ (splitNl b).headD []) :: (splitNl b).tail := by
  induction a with
  | nil =>
    cases h : splitNl b with
    | nil => exact absurd h (splitNl_ne_nil b)
    | cons x xs => simp [splitNl, h]
  | cons c cs ih =>
    by_cases hc : c = '\n'
    · subst hc
      rw [List.cons_append, splitNl_cons_nl, splitNl_cons_nl]
      cases hS : splitNl cs with
      | nil => exact absurd hS (splitNl_ne_nil cs)
      | cons s ss =>
        rw [ih, hS]
        cases ss with
        | nil => simp [List.getLastD_cons]
        | cons s1 ss1 =>
          simp only [List.dropLast_cons₂, List.getLastD_cons, List.cons_append]
    · cases hS : splitNl cs with
      | nil => exact absurd hS (splitNl_ne_nil cs)
      | cons s ss =>
        cases hU : splitNl (cs ++ b) with
        | nil => exact absurd hU (splitNl_ne_nil (cs ++ b))
        | cons u us =>
          rw [List.cons_append, splitNl_cons_other c (cs ++ b) hc u us hU,
            splitNl_cons_other c cs hc s ss hS]
          rw [ih, hS] at hU
          cases ss with
          | nil =>
            simp only [List.dropLast_single, List.nil_append, List.getLastD_cons,
              List.getLastD_nil, List.cons.injEq] at hU
            rw [List.dropLast_single, List.nil_append, List.getLastD_cons,
              List.getLastD_nil, ← hU.1, ← hU.2]
            rfl
          | cons s1 ss1 =>
            simp only [List.dropLast_cons₂, List.getLastD_cons, List.cons_append,
              List.cons.injEq] at hU
            simp only [List.dropLast_cons₂, List.getLastD_cons, List.cons_append,
              List.cons.injEq]
            refine ⟨⟨trivial, hU.1.symm⟩, ?_⟩
            rw [← hU.2]

theorem processChunk_eq {J : Type} (jp : List Char → Option J)
    (buf : List Char) (ds : List J) (ch : List Char) :
    processChunk jp (buf, ds) ch =
      ((splitNl (buf ++ ch)).getLastD [],
        ds ++ (splitNl (buf ++ ch)).dropLast.filterMap (lineDeliver jp)) := rfl

theorem foldChunks {J : Type} (jp : List Char → Option J) (chunks : List (List Char)) :
    ∀ (buf : List Char) (ds : List J), '\n' ∉ buf →
      chunks.foldl (processChunk jp) (buf, ds) =
        ((splitNl (buf ++ chunks.flatten)).getLastD [],
          ds ++ (splitNl (buf ++ chunks.flatten)).dropLast.filterMap (lineDeliver jp)) := by
  induction chunks with
  | nil =>
    intro buf ds h
    simp [splitNl_of_no_nl buf h]
  | cons ch rest ih =>
    intro buf ds h
    rw [List.foldl_cons, processChunk_eq,
      ih ((splitNl (buf ++ ch)).getLastD [])
        (ds ++ (splitNl (buf ++ ch)).dropLast.filterMap (lineDeliver jp))
        (splitNl_no_nl_last (buf ++ ch))]
    have hB : splitNl ((splitNl (buf ++ ch)).getLastD [] ++ rest.flatten) =
        ((splitNl (buf ++ ch)).getLastD [] ++ (splitNl rest.flatten).headD []) ::
          (splitNl rest.flatten).tail := by
      rw [splitNl_append, splitNl_of_no_nl _ (splitNl_no_nl_last (buf ++ ch))]
      rfl
    have hA : splitNl (buf ++ (ch :: rest).flatten) =
        (splitNl (buf ++ ch)).dropLast ++
          ((splitNl (buf ++ ch)).getLastD [] ++ (splitNl rest.flatten).headD []) ::
            (splitNl rest.flatten).tail := by
      rw [List.flatten_cons, ← List.append_assoc]
      exact splitNl_append (buf ++ ch) rest.flatten
    rw [hB, hA]
    rw [getLastD_append_cons, List.getLastD_cons, dropLast_append_cons',
      List.filterMap_append, ← List.append_assoc]

/-- C7: the NDJSON framing is a pass-through — over any chunk sequence, the
final buffer is exactly the text after the last newline of the concatenated
stream, and the deliveries are exactly one per newline-terminated line that
is non-blank and parses (in stream order); blank or unparsable lines are
dropped. -/
theorem ndjson_framing {J : Type} (jparse : List Char → Option J)
    (chunks : List (List Char)) :
    runChunks jparse chunks =
      ((splitNl chunks.flatten).getLastD [],
        (splitNl chunks.flatten).dropLast.filterMap
          (fun line => if jsTrim line = [] then none else jparse line)) := by
  unfold runChunks
  rw [foldChunks jparse chunks [] [] (by simp)]
  rfl


/-! ### Claim C6: the session-map invariant -/

theorem digitChar_inj_lt :
    ∀ a : Nat, a < 10 → ∀ b : Nat, b < 10 → Nat.digitChar a = Nat.digitChar b → a = b := by
  decide

theorem map_digitChar_inj (l₁ : List Nat) :
    ∀ l₂ : List Nat, (∀ d ∈ l₁, d < 10) → (∀ d ∈ l₂, d < 10) →
      l₁.map Nat.digitChar = l₂.map Nat.digitChar → l₁ = l₂ := by
  induction l₁ with
  | nil =>
    intro l₂ _ _ h
    cases l₂ with
    | nil => rfl
    | cons b bs => simp at h
  | cons a as ih =>
    intro l₂ h1 h2 h
    cases l₂ with
    | nil => simp at h
    | cons b bs =>
      simp only [List.map_cons, List.cons.injEq] at h
      have ha : a = b :=
        digitChar_inj_lt a (h1 a (List.mem_cons_self a as)) b
          (h2 b (List.mem_cons_self b bs)) h.1
      have hrest : as = bs :=
        ih bs (fun d hd => h1 d (List.mem_cons_of_mem _ hd))
          (fun d hd => h2 d (List.mem_cons_of_mem _ hd)) h.2
      rw [ha, hrest]

theorem natToDec_inj (m n : Nat) (h : natToDec m = natToDec n) : m = n := by
  unfold natToDec at h
  by_cases hm : m = 0 <;> by_cases hn : n = 0
  · rw [hm, hn]
  · exfalso
    rw [if_pos hm, if_neg hn] at h
    have h' := congrArg List.reverse h
    rw [List.reverse_reverse] at h'
    cases hd : Nat.digits 10 n with
    | nil => exact hn (Nat.digits_eq_nil_iff_eq_zero.mp hd)
    | cons d ds =>
      rw [hd] at h'
      cases ds with
      | nil =>
        simp only [List.map_cons, List.map_nil, List.reverse_cons, List.reverse_nil,
          List.nil_append, List.cons.injEq] at h'
        have hd10 : d < 10 :=
          Nat.digits_lt_base (by norm_num) (hd ▸ List.mem_cons_self d [])
        have : d = 0 := digitChar_inj_lt d hd10 0 (by norm_num) h'.1.symm
        have : Nat.digits 10 n = [0] := by rw [hd, this]
        have hzero : n = 0 := by
          have := congrArg (Nat.ofDigits 10) this
          rw [Nat.ofDigits_digits] at this
          simpa [Nat.ofDigits] using this
        exact hn hzero
      | cons d2 ds2 => simp at h'
  · exfalso
    rw [if_neg hm, if_pos hn] at h
    have h' := congrArg List.reverse h
    rw [List.reverse_reverse] at h'
    cases hd : Nat.digits 10 m with
    | nil => exact hm (Nat.digits_eq_nil_iff_eq_zero.mp hd)
    | cons d ds =>
      rw [hd] at h'
      cases ds with
      | nil =>
        simp only [List.map_cons, List.map_nil, List.reverse_cons, List.reverse_nil,
          List.nil_append, List.cons.injEq] at h'
        have hd10 : d < 10 :=
          Nat.digits_lt_base (by norm_num) (hd ▸ List.mem_cons_self d [])
        have : d = 0 := digitChar_inj_lt d hd10 0 (by norm_num) h'.1
        have : Nat.digits 10 m = [0] := by rw [hd, this]
        have hzero : m = 0 := by
          have := congrArg (Nat.ofDigits 10) this
          rw [Nat.ofDigits_digits] at this
          simpa [Nat.ofDigits] using this
        exact hm hzero
      | cons d2 ds2 => simp at h'
  · rw [if_neg hm, if_neg hn] at h
    have h' := congrArg List.reverse h
    rw [List.reverse_reverse, List.reverse_reverse] at h'
    have hdig : Nat.digits 10 m = Nat.digits 10 n :=
      map_digitChar_inj _ _
        (fun d hd => Nat.digits_lt_base (by norm_num) hd)
        (fun d hd => Nat.digits_lt_base (by norm_num) hd) h'
    have := congrArg (Nat.ofDigits 10) hdig
    rwa [Nat.ofDigits_digits, Nat.ofDigits_digits] at this

theorem mkId_inj (m n : Nat) (h : mkId m = mkId n) : m = n := by
  unfold mkId at h
  exact natToDec_inj m n (List.append_cancel_left h)

theorem create_eq (st : MgrState) (wd : List Char) :
    AgentSessionManager.create st wd =
      ({ sessions := mapSet st.sessions (mkId (st.counter + 1))
            { id := mkId (st.counter + 1), workdir := wd },
          counter := st.counter + 1 }, mkId (st.counter + 1)) := rfl

theorem mapSet_fresh (m : List (List Char × Session)) (k : List Char) (v : Session)
    (h : k ∉ m.map Prod.fst) : mapSet m k v = m ++ [(k, v)] := by
  unfold mapSet
  have hany : m.any (fun p => p.1 == k) = false := by
    rw [List.any_eq_false]
    intro p hp
    simp only [beq_iff_eq]
    exact fun e => h (List.mem_map.mpr ⟨p, hp, e⟩)
  simp [hany]

theorem Inv_of_sublist (st : MgrState) (l : List (List Char × Session))
    (hsub : l.Sublist st.sessions) (h : Inv st) :
    Inv { sessions := l, counter := st.counter } := by
  obtain ⟨hid, hnd, hbound⟩ := h
  exact ⟨fun p hp => hid p (hsub.subset hp),
    List.Nodup.sublist (hsub.map Prod.fst) hnd,
    fun p hp => hbound p (hsub.subset hp)⟩

theorem stopByWorkdirGo_state (nw : List Char) :
    ∀ (entries : List (List Char × Session)) (st : MgrState)
      (killed : List (List Char)),
      (stopByWorkdirGo nw entries st killed).1.counter = st.counter ∧
        (stopByWorkdirGo nw entries st killed).1.sessions.Sublist st.sessions := by
  intro entries
  induction entries with
  | nil => intro st killed; exact ⟨rfl, List.Sublist.refl _⟩
  | cons e rest ih =>
    intro st killed
    obtain ⟨id, s⟩ := e
    by_cases hm : wdMatch nw s.workdir
    · have step : stopByWorkdirGo nw ((id, s) :: rest) st killed =
          stopByWorkdirGo nw rest { st with sessions := mapDelete st.sessions id }
            (killed ++ [id]) := by
        unfold stopByWorkdirGo
        simp only [hm, if_pos]
        cases rest <;> rfl
      rw [step]
      refine ⟨(ih _ _).1, List.Sublist.trans (ih _ _).2 ?_⟩
      exact List.filter_sublist st.sessions
    · have step : stopByWorkdirGo nw ((id, s) :: rest) st killed =
          stopByWorkdirGo nw rest st killed := by
        unfold stopByWorkdirGo
        simp only [hm, if_neg, Bool.false_eq_true]
        cases rest <;> rfl
      rw [step]
      exact ih st killed

/-- C6: the session-map invariant (key = stored id, unique keys, every key an
`agent-<n>` for some n up to the counter) is preserved by every operation, and
`create` stamps the fresh id `agent-<counter+1>`, strictly increases the
counter, leaves every existing entry in place and never overwrites one. -/
theorem sessionManager_inv (st : MgrState) (wd sid d : List Char) (h : Inv st) :
    (Inv (AgentSessionManager.create st wd).1 ∧
        (AgentSessionManager.create st wd).2 = mkId (st.counter + 1) ∧
        (AgentSessionManager.create st wd).1.counter = st.counter + 1 ∧
        (AgentSessionManager.create st wd).2 ∉ st.sessions.map Prod.fst ∧
        ∀ p ∈ st.sessions, p ∈ (AgentSessionManager.create st wd).1.sessions) ∧
      Inv (AgentSessionManager.send st sid).1 ∧
      Inv (AgentSessionManager.stop st sid) ∧
      Inv (AgentSessionManager.stopAll st) ∧
      Inv (AgentSessionManager.stopByWorkdir st d).1 ∧
      Inv (AgentSessionManager.exitCleanup st sid) := by
  obtain ⟨hid, hnd, hbound⟩ := h
  have hfresh : mkId (st.counter + 1) ∉ st.sessions.map Prod.fst := by
    intro hmem
    rcases List.mem_map.mp hmem with ⟨p, hp, hpk⟩
    rcases hbound p hp with ⟨n, h1, h2, h3⟩
    have : n = st.counter + 1 := mkId_inj _ _ (by rw [← h3, hpk])
    omega
  have hset : mapSet st.sessions (mkId (st.counter + 1))
        { id := mkId (st.counter + 1), workdir := wd }
      = st.sessions ++ [(mkId (st.counter + 1),
          { id := mkId (st.counter + 1), workdir := wd })] :=
    mapSet_fresh _ _ _ hfresh
  refine ⟨⟨⟨?_, ?_, ?_⟩, rfl, rfl, hfresh, ?_⟩, ?_, ?_, ?_, ?_, ?_⟩
  · rw [create_eq]
    intro p hp
    rw [hset] at hp
    rcases List.mem_append.mp hp with hp | hp
    · exact hid p hp
    · rw [List.mem_singleton.mp hp]
  · rw [create_eq]
    show ((mapSet st.sessions (mkId (st.counter + 1)) _).map Prod.fst).Nodup
    rw [hset, List.map_append]
    rw [List.nodup_append]
    exact ⟨hnd, List.nodup_singleton _,
      fun k hk hk' => hfresh (by rwa [List.mem_singleton.mp hk'] at hk)⟩
  · rw [create_eq]
    intro p hp
    rw [hset] at hp
    rcases List.mem_append.mp hp with hp | hp
    · rcases hbound p hp with ⟨n, h1, h2, h3⟩
      exact ⟨n, h1, le_trans h2 (Nat.le_succ st.counter), h3⟩
    · rw [List.mem_singleton.mp hp]
      exact ⟨st.counter + 1, Nat.succ_le_succ (Nat.zero_le st.counter),
        le_refl (st.counter + 1), rfl⟩
  · rw [create_eq]
    intro p hp
    rw [hset]
    exact List.mem_append_left _ hp
  · unfold AgentSessionManager.send
    cases mapGet st.sessions sid <;> exact ⟨hid, hnd, hbound⟩
  · unfold AgentSessionManager.stop
    cases mapGet st.sessions sid with
    | none => exact ⟨hid, hnd, hbound⟩
    | some s =>
      exact Inv_of_sublist st _ (List.filter_sublist st.sessions) ⟨hid, hnd, hbound⟩
  · exact ⟨fun p hp => absurd hp (List.not_mem_nil p), List.nodup_nil,
      fun p hp => absurd hp (List.not_mem_nil p)⟩
  · unfold AgentSessionManager.stopByWorkdir
    have hst := stopByWorkdirGo_state (normalizePath d) st.sessions st []
    have : (stopByWorkdirGo (normalizePath d) st.sessions st []).1 =
        { sessions := (stopByWorkdirGo (normalizePath d) st.sessions st []).1.sessions,
          counter := st.counter } := by
      rw [← hst.1]
    rw [this]
    exact Inv_of_sublist st _ hst.2 ⟨hid, hnd, hbound⟩
  · exact Inv_of_sublist st _ (List.filter_sublist st.sessions) ⟨hid, hnd, hbound⟩

theorem sessionManager_inv_witness :
    Inv { sessions := [], counter := 0 } ∧
      (Inv (AgentSessionManager.create { sessions := [], counter := 0 } "/w".toList).1 ∧
          (AgentSessionManager.create { sessions := [], counter := 0 } "/w".toList).2
            = mkId 1 ∧
          (AgentSessionManager.create { sessions := [], counter := 0 } "/w".toList).1.counter
            = 1 ∧
          (AgentSessionManager.create { sessions := [], counter := 0 } "/w".toList).2
            ∉ (([] : List (List Char × Session)).map Prod.fst) ∧
          ∀ p ∈ ([] : List (List Char × Session)),
            p ∈ (AgentSessionManager.create { sessions := [], counter := 0 } "/w".toList).1.sessions) ∧
        Inv (AgentSessionManager.send { sessions := [], counter := 0 } "agent-1".toList).1 ∧
        Inv (AgentSessionManager.stop { sessions := [], counter := 0 } "agent-1".toList) ∧
        Inv (AgentSessionManager.stopAll { sessions := [], counter := 0 }) ∧
        Inv (AgentSessionManager.stopByWorkdir { sessions := [], counter := 0 } "/w".toList).1 ∧
        Inv (AgentSessionManager.exitCleanup { sessions := [], counter := 0 } "agent-1".toList) := by
  have hinv : Inv { sessions := [], counter := 0 } :=
    ⟨fun p hp => absurd hp (List.not_mem_nil p), List.nodup_nil,
      fun p hp => absurd hp (List.not_mem_nil p)⟩
  exact ⟨hinv,
    sessionManager_inv { sessions := [], counter := 0 } "/w".toList
      "agent-1".toList "/w".toList hinv⟩


/-! ### Claim C10: `stopByWorkdir` -/

theorem stopByWorkdirGo_spec (nw : List Char) :
    ∀ (entries : List (List Char × Session)) (st : MgrState)
      (killed : List (List Char)),
      stopByWorkdirGo nw entries st killed =
        ({ st with sessions :=
            st.sessions.filter (fun p => !(decide (p.1 ∈ matchedKeys nw entries))) },
          killed ++ matchedKeys nw entries) := by
  intro entries
  induction entries with
  | nil =>
    intro st killed
    have hfil : st.sessions.filter
        (fun p => !(decide (p.1 ∈ matchedKeys nw []))) = st.sessions := by
      rw [List.filter_eq_self]
      intro p _
      simp [matchedKeys]
    rw [show stopByWorkdirGo nw [] st killed = (st, killed) from rfl, hfil]
    simp [matchedKeys]
  | cons e rest ih =>
    intro st killed
    obtain ⟨id, s⟩ := e
    by_cases hm : wdMatch nw s.workdir
    · have hkeys : matchedKeys nw ((id, s) :: rest) = id :: matchedKeys nw rest := by
        simp [matchedKeys, hm]
      have step : stopByWorkdirGo nw ((id, s) :: rest) st killed =
          stopByWorkdirGo nw rest { st with sessions := mapDelete st.sessions id }
            (killed ++ [id]) := by
        unfold stopByWorkdirGo
        simp only [hm, if_pos]
        cases rest <;> rfl
      rw [step, ih, hkeys]
      have hfil : (mapDelete st.sessions id).filter
            (fun p => !(decide (p.1 ∈ matchedKeys nw rest))) =
          st.sessions.filter
            (fun p => !(decide (p.1 ∈ id :: matchedKeys nw rest))) := by
        unfold mapDelete
        rw [List.filter_filter]
        apply List.filter_congr
        intro p _
        by_cases h1 : p.1 = id <;> by_cases h2 : p.1 ∈ matchedKeys nw rest <;>
          simp [h1, h2]
      rw [hfil, List.append_assoc]
      rfl
    · have hkeys : matchedKeys nw ((id, s) :: rest) = matchedKeys nw rest := by
        simp [matchedKeys, hm]
      have step : stopByWorkdirGo nw ((id, s) :: rest) st killed =
          stopByWorkdirGo nw rest st killed := by
        unfold stopByWorkdirGo
        simp only [hm, if_neg, Bool.false_eq_true]
        cases rest <;> rfl
      rw [step, ih, hkeys]

/-- C10: `stopByWorkdir d` kills and removes exactly the sessions whose stored
workdir, after replacing backslashes with slashes and lowercasing, equals the
identically normalised `d` or starts with it followed by `/`; every other
entry survives unchanged and in order, and the killed keys are reported in
visit order. -/
theorem stopByWorkdir_frame (st : MgrState) (d : List Char)
    (h : (st.sessions.map Prod.fst).Nodup) :
    AgentSessionManager.stopByWorkdir st d =
      ({ st with sessions :=
          st.sessions.filter (fun p =>
            !((normalizePath p.2.workdir == normalizePath d) ||
              (normalizePath d ++ ['/']).isPrefixOf (normalizePath p.2.workdir))) },
        (st.sessions.filter (fun p =>
            (normalizePath p.2.workdir == normalizePath d) ||
              (normalizePath d ++ ['/']).isPrefixOf (normalizePath p.2.workdir))).map
          Prod.fst) := by
  unfold AgentSessionManager.stopByWorkdir
  rw [stopByWorkdirGo_spec]
  have hmatch : ∀ p ∈ st.sessions,
      decide (p.1 ∈ matchedKeys (normalizePath d) st.sessions)
        = wdMatch (normalizePath d) p.2.workdir := by
    intro p hp
    by_cases hw : wdMatch (normalizePath d) p.2.workdir
    · rw [hw, decide_eq_true_iff]
      exact List.mem_map.mpr ⟨p, List.mem_filter.mpr ⟨hp, hw⟩, rfl⟩
    · have hnot : p.1 ∉ matchedKeys (normalizePath d) st.sessions := by
        intro hmem
        rcases List.mem_map.mp hmem with ⟨q, hq, hqk⟩
        have hq' := List.mem_filter.mp hq
        have hqp : q = p := List.inj_on_of_nodup_map h hq'.1 hp hqk
        rw [hqp] at hq'
        exact hw hq'.2
      rw [Bool.eq_false_iff.mpr hw]
      exact decide_eq_false hnot
  have hcong : st.sessions.filter
        (fun p => !(decide (p.1 ∈ matchedKeys (normalizePath d) st.sessions)))
      = st.sessions.filter (fun p => !(wdMatch (normalizePath d) p.2.workdir)) :=
    List.filter_congr (fun p hp => by rw [hmatch p hp])
  rw [hcong, List.nil_append]
  rfl

theorem stopByWorkdir_frame_witness :
    (sampleState.sessions.map Prod.fst).Nodup ∧
      AgentSessionManager.stopByWorkdir sampleState ("C:/WORK/wt1").toList =
        ({ sessions := [(("agent-2").toList,
              { id := ("agent-2").toList, workdir := ("c:/work/other").toList })],
            counter := 2 },
          [("agent-1").toList]) :=
  ⟨by decide, by
    rw [stopByWorkdir_frame sampleState (("C:/WORK/wt1").toList) (by decide)]
    decide⟩

end EnsoAI
